import Mathlib

/-!
Shallow embedding of the schedule-to-ICS translation core of the
Class2Ics repository (source file src/core/schedule.py).

Modelling conventions.  A date-time is an integer number of minutes since a
fixed epoch (proleptic Gregorian 1970-01-01 00:00); a date is an integer
number of days since that epoch, so timedelta(weeks, days, hours, minutes)
becomes integer arithmetic in minutes and datetime.date() becomes floor
division by 1440.  Python strings are Lean strings; str.split with a
one-character separator and the regex split on the two characters dash and
week-marker are both modelled by splitChars, which cuts a character list at
every separator character, producing n+1 possibly empty pieces exactly as
Python does.  Python's int(s) is modelled by parseIntPy, an optional sign
followed by a nonempty run of decimal digits.  A failing int() call is a
ValueError carrying the offending literal, a missing dict key a KeyError
carrying the key, an out-of-range index an IndexError; together they form
the Err type.  The run of convert_class_schedule_to_ics either returns the
complete list of events to be serialised or the first error raised; since
the real program opens and writes the output file only after the whole
conversion loop, an error result models a run that produced no output file.
-/

/-- Errors the translated core can raise, mirroring Python's ValueError on
int(), KeyError on a dict lookup and IndexError on list indexing. -/
inductive Err where
  | invalidLiteral (s : String)
  | missingKey (k : String)
  | indexError
  deriving DecidableEq, Repr

deriving instance DecidableEq for Except

/-- Split a character list at every character satisfying p, yielding the
n+1 (possibly empty) pieces, as Python's split and re.split both do. -/
def splitChars (p : Char → Bool) : List Char → List (List Char)
  | [] => [[]]
  | c :: rest =>
    let r := splitChars p rest
    if p c then [] :: r else (c :: r.headI) :: r.tail

/-- s.split(sep) for a one-character separator. -/
def pySplitOn (sep : Char) (s : String) : List String :=
  (splitChars (fun c => c == sep) s.data).map String.mk

/-- re.split on the dash character or the CJK week marker, as used by
parse_week_ranges in the source (line 84). -/
def reSplitWeek (s : String) : List String :=
  (splitChars (fun c => c == '-' || c == '周') s.data).map String.mk

def digitVal (c : Char) : Nat := c.toNat - '0'.toNat

/-- Value of a run of decimal digit characters. -/
def valDigits (cs : List Char) : Int :=
  Int.ofNat (cs.foldl (fun a c => 10 * a + digitVal c) 0)

def parseDigits (cs : List Char) : Option Int :=
  if cs ≠ [] ∧ cs.all (fun c => c.isDigit) then some (valDigits cs) else none

/-- Python's int(s) on a string: optional sign then decimal digits;
none models the ValueError raised on anything else. -/
def parseIntPy (s : String) : Option Int :=
  match s.data with
  | [] => none
  | c :: rest =>
    if c = '-' then (parseDigits rest).map (fun n => -n)
    else if c = '+' then parseDigits rest
    else parseDigits (c :: rest)

/-- int(s), raising ValueError (invalid literal) on failure. -/
def toIntE (s : String) : Except Err Int :=
  match parseIntPy s with
  | some n => .ok n
  | none => .error (.invalidLiteral s)

/-- d[k] on the timetable dict, raising KeyError on a missing key. -/
def lookupE (tt : List (String × String)) (k : String) : Except Err String :=
  match tt.lookup k with
  | some v => .ok v
  | none => .error (.missingKey k)

/-- l[0] in Python: IndexError on an empty list. -/
def pyHead {α : Type} : List α → Except Err α
  | [] => .error .indexError
  | a :: _ => .ok a

/-- l[-1] in Python: IndexError on an empty list. -/
def pyLast {α : Type} : List α → Except Err α
  | [] => .error .indexError
  | [a] => .ok a
  | _ :: b :: t => pyLast (b :: t)

/-- l[i] for a nonnegative index. -/
def pyIdxE {α : Type} (l : List α) (i : Nat) : Except Err α :=
  match l.get? i with
  | some a => .ok a
  | none => .error .indexError

/-- range(a, b) over the integers: a, a+1, ..., b-1. -/
def pyRange (a b : Int) : List Int :=
  (List.range (b - a).toNat).map (fun (n : Nat) => a + (n : Int))

/-- Left-to-right effectful map over a list, stopping at the first error:
the semantics of a Python for-loop that appends to an accumulator and can
raise. -/
def mapME {α β : Type} (f : α → Except Err β) : List α → Except Err (List β)
  | [] => .ok []
  | a :: rest => do
    let b ← f a
    let bs ← mapME f rest
    .ok (b :: bs)

/-- convert_to_datetime (schedule.py lines 11-31): anchor plus
(week-1) weeks, (day-1) days, and the clock time parsed from "HH:MM".
One week is 10080 minutes, one day 1440. -/
def convert_to_datetime (first_monday : Int) (week_number day_of_week : Int)
    (time : String) : Except Err Int := do
  let hs ← pyIdxE (pySplitOn ':' time) 0
  let h ← toIntE hs
  let ms ← pyIdxE (pySplitOn ':' time) 1
  let m ← toIntE ms
  .ok (first_monday + (week_number - 1) * 10080 + (day_of_week - 1) * 1440 + h * 60 + m)

/-- convert_to_date (schedule.py lines 34-48): first_monday.date() plus
(week-1) weeks and (day-1) days; .date() floors the minute count to days. -/
def convert_to_date (first_monday : Int) (week_number day_of_week : Int) : Int :=
  first_monday.ediv 1440 + (week_number - 1) * 7 + (day_of_week - 1)

/-- Days from the epoch 1970-01-01 of a proleptic Gregorian calendar date,
used to state concrete-date facts about the projectors. -/
def daysFromCivil (y m d : Int) : Int :=
  let y2 : Int := if m ≤ 2 then y - 1 else y
  let era : Int := (if 0 ≤ y2 then y2 else y2 - 399).ediv 400
  let yoe : Int := y2 - era * 400
  let doy : Int := (153 * (m + (if 2 < m then -3 else 9)) + 2).ediv 5 + d - 1
  let doe : Int := yoe * 365 + yoe.ediv 4 - yoe.ediv 100 + doy
  era * 146097 + doe - 719468

/-- Midnight of a Gregorian date, in minutes since the epoch. -/
def minutesFromCivil (y m d : Int) : Int := 1440 * daysFromCivil y m d

/-- One comma-separated token of the week-range string: split on dash or
the week marker, drop empty pieces, convert each piece with int()
(schedule.py lines 83-86). -/
def parse_week_token (tok : String) : Except Err (List Int) :=
  mapME toIntE ((reSplitWeek tok).filter (fun item => !(item == "")))

/-- parse_week_ranges (schedule.py lines 70-88). -/
def parse_week_ranges (week_range_str : String) : Except Err (List (List Int)) :=
  mapME parse_week_token (pySplitOn ',' week_range_str)

/-- The fields of one record of the input JSON's kbList that the translator
reads: course name, instructor, weekday index, period range, week ranges,
campus name, room name. -/
structure Entry where
  kcmc : String
  xm : String
  xqj : String
  jcor : String
  zcd : String
  xqmc : String
  cdmc : String
  deriving DecidableEq, Repr

inductive Freq where
  | weekly
  deriving DecidableEq, Repr

/-- The calendar event handed to the external serialiser: start and end
date-times, summary, description, location, the weekly recurrence rule and
the exception-date list. -/
structure Event where
  dtstart : Int
  dtend : Int
  summary : String
  description : String
  location : String
  rruleFreq : Freq
  rruleCount : Int
  rruleInterval : Int
  exdate : List Int
  deriving DecidableEq, Repr

/-- The covered-week set of schedule.py lines 140-142: the union of
range(r[0], r[-1] + 1) over all parsed ranges, kept as a list since only
membership is ever used. -/
def coveredOne (r : List Int) : Except Err (List Int) := do
  let a ← pyHead r
  let b ← pyLast r
  .ok (pyRange a (b + 1))

def coveredWeeks (wrs : List (List Int)) : Except Err (List Int) := do
  let ls ← mapME coveredOne wrs
  .ok ls.flatten

/-- The exception-week sweep of schedule.py lines 150-155: every week in
range(week_ranges[0][0], week_ranges[-1][-1]) not in the covered set. -/
def exceptionWeeks (wrs : List (List Int)) : Except Err (List Int) := do
  let cov ← coveredWeeks wrs
  let wr0 ← pyHead wrs
  let f ← pyHead wr0
  let wrl ← pyLast wrs
  let l ← pyLast wrl
  .ok ((pyRange f l).filter (fun w => !cov.contains w))

/-- The body of the conversion loop of convert_class_schedule_to_ics
(schedule.py lines 118-167) for one entry, in source order.  The splits of
jcor and of the timetable values never yield an empty list, so the source's
[0] and [-1] there are total and modelled by headI and getLastI. -/
def convertEntry (first_monday : Int) (timetable : List (String × String))
    (e : Entry) : Except Err Event := do
  let week_ranges ← parse_week_ranges e.zcd
  let t1 ← lookupE timetable ((pySplitOn '-' e.jcor).headI)
  let t2 ← lookupE timetable ((pySplitOn '-' e.jcor).getLastI)
  let start_time_str := (pySplitOn '-' t1).headI
  let end_time_str := (pySplitOn '-' t2).getLastI
  let wr0 ← pyHead week_ranges
  let w0 ← pyHead wr0
  let dow ← toIntE e.xqj
  let start_time ← convert_to_datetime first_monday w0 dow start_time_str
  let end_time ← convert_to_datetime first_monday w0 dow end_time_str
  let cov ← coveredWeeks week_ranges
  let wrl ← pyLast week_ranges
  let wl ← pyLast wrl
  .ok {
    dtstart := start_time
    dtend := end_time
    summary := e.kcmc
    description := e.xm
    location := String.mk (e.xqmc.data.dropLast.dropLast) ++ " " ++ e.cdmc
    rruleFreq := .weekly
    rruleCount := wl - w0 + 1
    rruleInterval := 1
    exdate := ((pyRange w0 wl).filter (fun w => !cov.contains w)).map
      (fun w => convert_to_date first_monday w dow) }

/-- convert_class_schedule_to_ics (schedule.py lines 91-171), restricted to
its pure core: the JSON reads and the final file write are the trusted
boundary, so the function maps the entry list to events; an error result
models the run aborting with no output file written. -/
def convert_class_schedule_to_ics (first_monday : Int)
    (timetable : List (String × String)) (kbList : List Entry) :
    Except Err (List Event) :=
  mapME (convertEntry first_monday timetable) kbList

/-- The message text Python attaches to each error kind. -/
def errMsg : Err → String
  | .invalidLiteral s => "invalid literal for int() with base 10: " ++ s
  | .missingKey k => k
  | .indexError => "list index out of range"

/-- needle occurs as a contiguous run at the head of hay. -/
def leadMatch : List Char → List Char → Bool
  | [], _ => true
  | _ :: _, [] => false
  | a :: as, b :: bs => a == b && leadMatch as bs

/-- needle occurs as a contiguous run somewhere in hay. -/
def containsSub (needle : List Char) : List Char → Bool
  | [] => needle.isEmpty
  | b :: bs => leadMatch needle (b :: bs) || containsSub needle bs

/-! ### Lemmas about the building blocks -/

theorem bindOk {α β : Type} (x : Except Err α) (f : α → Except Err β) (b : β) :
    (x >>= f) = .ok b ↔ ∃ a, x = .ok a ∧ f a = .ok b := by
  cases x <;> simp [Bind.bind, Except.bind]

theorem pyHead_ok {α : Type} (l : List α) (a : α) :
    pyHead l = .ok a ↔ ∃ t, l = a :: t := by
  cases l <;> simp [pyHead, eq_comm]

theorem pyLast_cons_cons {α : Type} (a b : α) (t : List α) :
    pyLast (a :: b :: t) = pyLast (b :: t) := rfl

theorem pyLast_append_singleton {α : Type} (l : List α) (y : α) :
    pyLast (l ++ [y]) = .ok y := by
  induction l with
  | nil => rfl
  | cons c l ih =>
    cases h : l ++ [y] with
    | nil => exact absurd h (by simp)
    | cons d rest => rw [List.cons_append, h, pyLast_cons_cons, ← h, ih]

theorem pyLast_append_cons {α : Type} (l : List α) (y : α) (post : List α) :
    pyLast (l ++ y :: post) = pyLast (y :: post) := by
  induction l with
  | nil => rfl
  | cons c l ih =>
    cases h : l ++ y :: post with
    | nil => exact absurd h (by simp)
    | cons d rest => rw [List.cons_append, h, pyLast_cons_cons, ← h, ih]

theorem mem_pyRange (a b w : Int) : w ∈ pyRange a b ↔ a ≤ w ∧ w < b := by
  unfold pyRange
  rw [List.mem_map]
  constructor
  · rintro ⟨i, hi, hw⟩
    rw [List.mem_range] at hi
    omega
  · rintro ⟨h1, h2⟩
    exact ⟨(w - a).toNat, List.mem_range.mpr (by omega), by omega⟩

theorem mapME_nil {α β : Type} (f : α → Except Err β) : mapME f [] = .ok [] := rfl

theorem mapME_ok_cons {α β : Type} (f : α → Except Err β) (a : α) (l : List α)
    (bs : List β) :
    mapME f (a :: l) = .ok bs ↔
      ∃ b bs2, f a = .ok b ∧ mapME f l = .ok bs2 ∧ bs = b :: bs2 := by
  simp only [mapME, bindOk]
  constructor
  · rintro ⟨b, hb, bs2, hbs2, h⟩
    exact ⟨b, bs2, hb, hbs2, by cases h; rfl⟩
  · rintro ⟨b, bs2, hb, hbs2, rfl⟩
    exact ⟨b, hb, bs2, hbs2, rfl⟩

theorem mapME_error_elim {α β : Type} {f : α → Except Err β} {l : List α} {err : Err}
    (h : mapME f l = .error err) : ∃ a ∈ l, f a = .error err := by
  induction l with
  | nil => exact absurd h (by simp [mapME])
  | cons a rest ih =>
    simp only [mapME] at h
    cases ha : f a with
    | error e =>
      rw [ha] at h
      simp [Bind.bind, Except.bind] at h
      exact ⟨a, by simp, by rw [ha, h]⟩
    | ok b =>
      rw [ha] at h
      cases hr : mapME f rest with
      | error e =>
        rw [hr] at h
        simp [Bind.bind, Except.bind] at h
        obtain ⟨x, hx, hfx⟩ := ih (by rw [hr, h])
        exact ⟨x, by simp [hx], hfx⟩
      | ok bs =>
        rw [hr] at h
        simp [Bind.bind, Except.bind] at h

theorem mapME_error_intro {α β : Type} {f : α → Except Err β} {l : List α} {a : α}
    {err : Err} (hmem : a ∈ l) (ha : f a = .error err) :
    ∃ e, mapME f l = .error e := by
  induction l with
  | nil => cases hmem
  | cons x rest ih =>
    simp only [mapME]
    cases hx : f x with
    | error e => exact ⟨e, by simp [Bind.bind, Except.bind]⟩
    | ok b =>
      rcases List.mem_cons.mp hmem with rfl | hmem2
      · rw [hx] at ha; cases ha
      · obtain ⟨e, he⟩ := ih hmem2
        exact ⟨e, by simp [Bind.bind, Except.bind, he]⟩

theorem coveredOne_ok {r : List Int} {piece : List Int}
    (h : coveredOne r = .ok piece) :
    ∃ a b, pyHead r = .ok a ∧ pyLast r = .ok b ∧ piece = pyRange a (b + 1) := by
  simp only [coveredOne, bindOk] at h
  obtain ⟨a, ha, b, hb, hp⟩ := h
  exact ⟨a, b, ha, hb, by cases hp; rfl⟩

theorem coveredWeeks_mem {wrs : List (List Int)} {cov : List Int}
    (h : coveredWeeks wrs = .ok cov) (w : Int) :
    w ∈ cov ↔ ∃ r ∈ wrs, ∃ a b, pyHead r = .ok a ∧ pyLast r = .ok b ∧
      a ≤ w ∧ w ≤ b := by
  induction wrs generalizing cov with
  | nil =>
    simp only [coveredWeeks, mapME, bindOk] at h
    obtain ⟨ls, hls, hc⟩ := h
    cases hls
    cases hc
    simp
  | cons r rest ih =>
    simp only [coveredWeeks, mapME, bindOk] at h
    obtain ⟨ls, ⟨piece, hpiece, ⟨pieces, hpieces, hls⟩⟩, hc⟩ := h
    cases hls
    cases hc
    obtain ⟨a, b, ha, hb, hpr⟩ := coveredOne_ok hpiece
    subst hpr
    have hrest : coveredWeeks rest = .ok pieces.flatten := by
      simp only [coveredWeeks, bindOk]
      exact ⟨pieces, hpieces, rfl⟩
    rw [List.flatten_cons, List.mem_append, ih hrest, mem_pyRange]
    constructor
    · rintro (⟨hw1, hw2⟩ | ⟨r2, hr2, a2, b2, ha2, hb2, hw⟩)
      · exact ⟨r, by simp, a, b, ha, hb, hw1, by omega⟩
      · exact ⟨r2, by simp [hr2], a2, b2, ha2, hb2, hw⟩
    · rintro ⟨r2, hr2, a2, b2, ha2, hb2, hw1, hw2⟩
      rcases List.mem_cons.mp hr2 with rfl | hr2m
      · rw [ha] at ha2
        rw [hb] at hb2
        cases ha2
        cases hb2
        exact Or.inl ⟨hw1, by omega⟩
      · exact Or.inr ⟨r2, hr2m, a2, b2, ha2, hb2, hw1, hw2⟩

theorem exceptionWeeks_eq {wrs : List (List Int)} {cov wr0 : List Int}
    {w0 : Int} {wrl : List Int} {wl : Int}
    (hcov : coveredWeeks wrs = .ok cov)
    (h1 : pyHead wrs = .ok wr0) (h2 : pyHead wr0 = .ok w0)
    (h3 : pyLast wrs = .ok wrl) (h4 : pyLast wrl = .ok wl) :
    exceptionWeeks wrs = .ok ((pyRange w0 wl).filter (fun w => !cov.contains w)) := by
  simp [exceptionWeeks, hcov, h1, h2, h3, h4, Bind.bind, Except.bind]

theorem mem_week_filter (cov : List Int) (w0 wl w : Int) :
    w ∈ (pyRange w0 wl).filter (fun v => !cov.contains v) ↔
      w0 ≤ w ∧ w < wl ∧ w ∉ cov := by
  rw [List.mem_filter, mem_pyRange]
  simp only [Bool.not_eq_true', ← Bool.not_eq_true]
  rw [List.elem_iff]
  tauto

/-- Inversion principle for one loop iteration of the translator: a produced
event determines every intermediate value of schedule.py lines 118-167. -/
theorem convertEntry_ok {fm : Int} {tt : List (String × String)} {e : Entry}
    {ev : Event} (hok : convertEntry fm tt e = .ok ev) :
    ∃ wrs t1 t2 wr0 w0 dow st et cov wrl wl,
      parse_week_ranges e.zcd = .ok wrs ∧
      lookupE tt ((pySplitOn '-' e.jcor).headI) = .ok t1 ∧
      lookupE tt ((pySplitOn '-' e.jcor).getLastI) = .ok t2 ∧
      pyHead wrs = .ok wr0 ∧
      pyHead wr0 = .ok w0 ∧
      toIntE e.xqj = .ok dow ∧
      convert_to_datetime fm w0 dow ((pySplitOn '-' t1).headI) = .ok st ∧
      convert_to_datetime fm w0 dow ((pySplitOn '-' t2).getLastI) = .ok et ∧
      coveredWeeks wrs = .ok cov ∧
      pyLast wrs = .ok wrl ∧
      pyLast wrl = .ok wl ∧
      ev = { dtstart := st, dtend := et, summary := e.kcmc, description := e.xm,
             location := String.mk (e.xqmc.data.dropLast.dropLast) ++ " " ++ e.cdmc,
             rruleFreq := .weekly, rruleCount := wl - w0 + 1, rruleInterval := 1,
             exdate := ((pyRange w0 wl).filter (fun w => !cov.contains w)).map
               (fun w => convert_to_date fm w dow) } := by
  simp only [convertEntry, bindOk, Except.ok.injEq] at hok
  obtain ⟨wrs, h1, t1, h2, t2, h3, wr0, h4, w0, h5, dow, h6, st, h7, et, h8,
    cov, h9, wrl, h10, wl, h11, h12⟩ := hok
  exact ⟨wrs, t1, t2, wr0, w0, dow, st, et, cov, wrl, wl,
    h1, h2, h3, h4, h5, h6, h7, h8, h9, h10, h11, h12.symm⟩

theorem okInj {α : Type} {x : Except Err α} {a b : α}
    (h1 : x = .ok a) (h2 : x = .ok b) : a = b := by
  rw [h1] at h2
  exact Except.ok.inj h2

/-- exceptionWeeks reads the parsed ranges only through the covered set,
week_ranges[0][0] and week_ranges[-1][-1]. -/
theorem exceptionWeeks_via (wrs : List (List Int)) :
    exceptionWeeks wrs = (do
      let cov ← coveredWeeks wrs
      let f ← pyHead wrs >>= pyHead
      let l ← pyLast wrs >>= pyLast
      .ok ((pyRange f l).filter (fun w => !cov.contains w))) := by
  simp only [exceptionWeeks, bind_assoc]

theorem pyHead_bind_eq (x : Int) (pre post : List (List Int)) :
    (pyHead (pre ++ [x] :: post) >>= pyHead) =
      (pyHead (pre ++ [x, x] :: post) >>= pyHead) := by
  cases pre with
  | nil => rfl
  | cons c t => rfl

theorem pyLast_bind_eq (x : Int) (pre post : List (List Int)) :
    (pyLast (pre ++ [x] :: post) >>= pyLast) =
      (pyLast (pre ++ [x, x] :: post) >>= pyLast) := by
  cases post with
  | nil =>
    rw [show pre ++ [x] :: [] = pre ++ [[x]] from rfl,
      show pre ++ [x, x] :: [] = pre ++ [[x, x]] from rfl,
      pyLast_append_singleton, pyLast_append_singleton]
    rfl
  | cons q rest =>
    rw [pyLast_append_cons, pyLast_append_cons, pyLast_cons_cons, pyLast_cons_cons]

theorem coveredWeeks_congr (x : Int) (pre post : List (List Int)) :
    coveredWeeks (pre ++ [x] :: post) = coveredWeeks (pre ++ [x, x] :: post) := by
  have hone : coveredOne [x] = coveredOne [x, x] := rfl
  unfold coveredWeeks
  have hmap : mapME coveredOne (pre ++ [x] :: post) =
      mapME coveredOne (pre ++ [x, x] :: post) := by
    induction pre with
    | nil =>
      simp only [List.nil_append, mapME]
      rw [hone]
    | cons r t ih =>
      simp only [List.cons_append, mapME, List.append_eq]
      rw [ih]
  rw [hmap]

theorem exceptionWeeks_congr (x : Int) (pre post : List (List Int)) :
    exceptionWeeks (pre ++ [x] :: post) = exceptionWeeks (pre ++ [x, x] :: post) := by
  rw [exceptionWeeks_via, exceptionWeeks_via]
  simp only [coveredWeeks_congr x pre post, pyHead_bind_eq x pre post,
    pyLast_bind_eq x pre post]

/-! ### Splitting lemmas for the week-range grammar -/

theorem splitChars_ne_nil (p : Char → Bool) (cs : List Char) :
    splitChars p cs ≠ [] := by
  cases cs with
  | nil => simp [splitChars]
  | cons c rest =>
    simp only [splitChars]
    split <;> simp

theorem splitChars_sep {p : Char → Bool} {c : Char} (hc : p c = true)
    (cs : List Char) : splitChars p (c :: cs) = [] :: splitChars p cs := by
  simp [splitChars, hc]

theorem splitChars_no_sep {p : Char → Bool} {t : List Char}
    (h : ∀ c ∈ t, p c = false) : splitChars p t = [t] := by
  induction t with
  | nil => rfl
  | cons c rest ih =>
    have hc : p c = false := h c (by simp)
    have ih2 := ih (fun d hd => h d (by simp [hd]))
    simp [splitChars, hc, ih2]

theorem splitChars_append {p : Char → Bool} {xs : List Char}
    (h : ∀ c ∈ xs, p c = false) (ys : List Char) :
    splitChars p (xs ++ ys) =
      (xs ++ (splitChars p ys).headI) :: (splitChars p ys).tail := by
  induction xs with
  | nil =>
    simp only [List.nil_append]
    cases hys : splitChars p ys with
    | nil => exact absurd hys (splitChars_ne_nil p ys)
    | cons a t => simp
  | cons c xs ih =>
    have hc : p c = false := h c (by simp)
    have ih2 := ih (fun d hd => h d (by simp [hd]))
    simp [splitChars, hc, ih2]

theorem digit_not_dash {c : Char} (h : c.isDigit = true) :
    (c == '-' || c == '周') = false := by
  have h1 : c ≠ '-' := by rintro rfl; exact absurd h (by decide)
  have h2 : c ≠ '周' := by rintro rfl; exact absurd h (by decide)
  simp [h1, h2]

theorem digit_not_comma {c : Char} (h : c.isDigit = true) :
    (c == ',') = false := by
  have h1 : c ≠ ',' := by rintro rfl; exact absurd h (by decide)
  simp [h1]

theorem mk_ne_empty {cs : List Char} (h : cs ≠ []) : String.mk cs ≠ "" := by
  cases cs with
  | nil => exact absurd rfl h
  | cons c t =>
    intro hEq
    have := congrArg String.data hEq
    simp at this

theorem toIntE_digits {cs : List Char} (hne : cs ≠ [])
    (hdig : ∀ c ∈ cs, c.isDigit) : toIntE (String.mk cs) = .ok (valDigits cs) := by
  cases cs with
  | nil => exact absurd rfl hne
  | cons c rest =>
    have hc := hdig c (by simp)
    have h1 : c ≠ '-' := by rintro rfl; exact absurd hc (by decide)
    have h2 : c ≠ '+' := by rintro rfl; exact absurd hc (by decide)
    have hall : (c :: rest).all (fun d => d.isDigit) = true := by
      rw [List.all_eq_true]
      exact hdig
    simp [toIntE, parseIntPy, h1, h2, parseDigits, hall]

/-- A single-week token: digits followed by the week marker parse to a
one-element list. -/
theorem parse_week_token_single {n : List Char} (hne : n ≠ [])
    (hdig : ∀ c ∈ n, c.isDigit) :
    parse_week_token (String.mk (n ++ ['周'])) = .ok [valDigits n] := by
  unfold parse_week_token reSplitWeek
  rw [show (String.mk (n ++ ['周'])).data = n ++ ['周'] from rfl]
  rw [splitChars_append (fun c hc => digit_not_dash (hdig c hc)) ['周']]
  rw [show splitChars (fun c => c == '-' || c == '周') ['周'] = [[], []] from rfl]
  simp only [List.headI, List.tail, List.append_nil, List.map_cons, List.map_nil]
  rw [show String.mk [] = "" from rfl]
  have hkeep : (!(String.mk n == "")) = true := by
    simp [mk_ne_empty hne]
  simp only [List.filter_cons, List.filter_nil, hkeep, if_true]
  rw [show (!("" == "")) = false from rfl]
  simp only [Bool.false_eq_true, if_false]
  simp [mapME, toIntE_digits hne hdig, Bind.bind, Except.bind]

/-- A range token: digits, dash, digits, week marker parse to a two-element
list. -/
theorem parse_week_token_range {a b : List Char} (hna : a ≠ [])
    (hda : ∀ c ∈ a, c.isDigit) (hnb : b ≠ []) (hdb : ∀ c ∈ b, c.isDigit) :
    parse_week_token (String.mk (a ++ '-' :: (b ++ ['周']))) =
      .ok [valDigits a, valDigits b] := by
  unfold parse_week_token reSplitWeek
  rw [show (String.mk (a ++ '-' :: (b ++ ['周']))).data = a ++ '-' :: (b ++ ['周'])
    from rfl]
  rw [splitChars_append (fun c hc => digit_not_dash (hda c hc)) ('-' :: (b ++ ['周']))]
  rw [splitChars_sep (show ((('-' : Char) == '-') || (('-' : Char) == '周')) = true
    from rfl) (b ++ ['周'])]
  rw [splitChars_append (fun c hc => digit_not_dash (hdb c hc)) ['周']]
  rw [show splitChars (fun c => c == '-' || c == '周') ['周'] = [[], []] from rfl]
  simp only [List.headI, List.tail, List.append_nil, List.map_cons, List.map_nil]
  rw [show String.mk [] = "" from rfl]
  have hka : (!(String.mk a == "")) = true := by simp [mk_ne_empty hna]
  have hkb : (!(String.mk b == "")) = true := by simp [mk_ne_empty hnb]
  simp only [List.filter_cons, List.filter_nil, hka, hkb, if_true]
  rw [show (!("" == "")) = false from rfl]
  simp only [Bool.false_eq_true, if_false]
  simp [mapME, toIntE_digits hna hda, toIntE_digits hnb hdb, Bind.bind, Except.bind]

/-- Join token texts with commas, the inverse image of the split on the
comma in parse_week_ranges. -/
def joinTokens : List (List Char) → List Char
  | [] => []
  | [x] => x
  | x :: y :: rest => x ++ ',' :: joinTokens (y :: rest)

theorem splitChars_join {p : Char → Bool} (hp : p ',' = true) :
    ∀ ts : List (List Char), ts ≠ [] → (∀ t ∈ ts, ∀ c ∈ t, p c = false) →
      splitChars p (joinTokens ts) = ts := by
  intro ts
  induction ts with
  | nil => intro h; exact absurd rfl h
  | cons t rest ih =>
    intro _ hsep
    cases rest with
    | nil =>
      simp only [joinTokens]
      exact splitChars_no_sep (fun c hc => hsep t (by simp) c hc)
    | cons t2 rest2 =>
      simp only [joinTokens]
      rw [splitChars_append (fun c hc => hsep t (by simp) c hc)]
      rw [splitChars_sep hp]
      rw [ih (by simp) (fun u hu c hc => hsep u (by simp [hu]) c hc)]
      simp

/-- Splitting a comma-join of comma-free token texts recovers the tokens,
so parse_week_ranges is the per-token parser mapped over the token list. -/
theorem parse_week_ranges_join (ts : List (List Char)) (hne : ts ≠ [])
    (hsep : ∀ t ∈ ts, ∀ c ∈ t, (c == ',') = false) :
    parse_week_ranges (String.mk (joinTokens ts)) =
      mapME parse_week_token (ts.map String.mk) := by
  unfold parse_week_ranges pySplitOn
  rw [show (String.mk (joinTokens ts)).data = joinTokens ts from rfl]
  rw [splitChars_join rfl ts hne hsep]

/-- The shape of one comma-separated token of a well-formed week-range
string: either start-dash-end-marker or a bare week number and the marker,
with nonempty digit runs. -/
inductive WeekTok where
  | rangeTok (a b : List Char) (ha : a ≠ [] ∧ ∀ c ∈ a, c.isDigit)
      (hb : b ≠ [] ∧ ∀ c ∈ b, c.isDigit)
  | singleTok (n : List Char) (hn : n ≠ [] ∧ ∀ c ∈ n, c.isDigit)

def renderTok : WeekTok → List Char
  | .rangeTok a b _ _ => a ++ '-' :: (b ++ ['周'])
  | .singleTok n _ => n ++ ['周']

def denoteTok : WeekTok → List Int
  | .rangeTok a b _ _ => [valDigits a, valDigits b]
  | .singleTok n _ => [valDigits n]

theorem renderTok_no_comma (t : WeekTok) : ∀ c ∈ renderTok t, (c == ',') = false := by
  cases t with
  | rangeTok a b ha hb =>
    intro c hc
    simp only [renderTok, List.mem_append, List.mem_cons] at hc
    rcases hc with h | h | h
    · exact digit_not_comma (ha.2 c h)
    · subst h; rfl
    · rcases h with h2 | h2 | h2
      · exact digit_not_comma (hb.2 c h2)
      · subst h2; rfl
      · cases h2
  | singleTok n hn =>
    intro c hc
    rcases List.mem_append.mp hc with h | h
    · exact digit_not_comma (hn.2 c h)
    · simp at h; subst h; rfl

theorem parse_week_token_renderTok (t : WeekTok) :
    parse_week_token (String.mk (renderTok t)) = .ok (denoteTok t) := by
  cases t with
  | rangeTok a b ha hb =>
    exact parse_week_token_range ha.1 ha.2 hb.1 hb.2
  | singleTok n hn =>
    exact parse_week_token_single hn.1 hn.2

theorem mapME_renderTok (toks : List WeekTok) :
    mapME parse_week_token ((toks.map renderTok).map String.mk) =
      .ok (toks.map denoteTok) := by
  induction toks with
  | nil => rfl
  | cons t rest ih =>
    simp only [List.map_cons, mapME, parse_week_token_renderTok t, ih]
    rfl

/-! ### Concrete fixtures used by witnesses -/

/-- Timetable with period 1 at 08:00-08:45 and period 2 at 08:55-09:40. -/
def ttStd : List (String × String) := [("1", "08:00-08:45"), ("2", "08:55-09:40")]

/-- Monday 2024-02-26 as the week-1 anchor. -/
def anchor2024 : Int := minutesFromCivil 2024 2 26

def entryRound : Entry :=
  { kcmc := "课程A", xm := "老师B", xqj := "2", jcor := "1-2",
    zcd := "1-16周", xqmc := "校区AB", cdmc := "101" }

def entryGap : Entry :=
  { kcmc := "高等数学", xm := "张三", xqj := "5", jcor := "1-2",
    zcd := "1-4,6-8周", xqmc := "某某校区", cdmc := "203" }

def entryBad : Entry :=
  { kcmc := "高等数学", xm := "张三", xqj := "2", jcor := "1-2",
    zcd := "abc周", xqmc := "某某校区", cdmc := "203" }

def evRound : Event :=
  { dtstart := 28483680, dtend := 28483780, summary := "课程A",
    description := "老师B", location := "校区 101", rruleFreq := .weekly,
    rruleCount := 16, rruleInterval := 1, exdate := [] }

def evGap : Event :=
  { dtstart := 28488000, dtend := 28488100, summary := "高等数学",
    description := "张三", location := "某某 203", rruleFreq := .weekly,
    rruleCount := 8, rruleInterval := 1, exdate := [19811] }

/-! ### The claims -/

/-- C1: for an entry whose week ranges parse (to a nonempty list of nonempty
ranges, as every converted entry has), the exception weeks are exactly the
integers from the first range's start up to the last range's end minus one
(upper bound exclusive, so the last week is never tested) that lie inside no
parsed range, each mapped to a date by the date-only projector; and the
input [[1,4],[6,8]] yields exception weeks [5] only. -/
theorem claim1_exception_weeks {fm : Int} {tt : List (String × String)}
    {e : Entry} {ev : Event} {wrs : List (List Int)} {dow : Int}
    (hok : convertEntry fm tt e = .ok ev)
    (hparse : parse_week_ranges e.zcd = .ok wrs)
    (hdow : toIntE e.xqj = .ok dow) :
    (∃ ws, exceptionWeeks wrs = .ok ws ∧
      ev.exdate = ws.map (fun w => convert_to_date fm w dow) ∧
      ∀ wr0 w0 wrl wl, pyHead wrs = .ok wr0 → pyHead wr0 = .ok w0 →
        pyLast wrs = .ok wrl → pyLast wrl = .ok wl →
        ∀ w : Int, w ∈ ws ↔
          w0 ≤ w ∧ w ≤ wl - 1 ∧
            ¬ ∃ r ∈ wrs, ∃ a b, pyHead r = .ok a ∧ pyLast r = .ok b ∧
              a ≤ w ∧ w ≤ b) ∧
    exceptionWeeks [[1, 4], [6, 8]] = .ok [5] := by
  obtain ⟨wrs2, t1, t2, wr0, w0, dow2, st, et, cov, wrl, wl, hp, ht1, ht2, hh1,
    hh2, hd, hst, het, hcov, hl1, hl2, hev⟩ := convertEntry_ok hok
  obtain rfl : wrs2 = wrs := okInj hp hparse
  obtain rfl : dow2 = dow := okInj hd hdow
  refine ⟨⟨(pyRange w0 wl).filter (fun w => !cov.contains w),
    exceptionWeeks_eq hcov hh1 hh2 hl1 hl2, by rw [hev], ?_⟩, by decide⟩
  intro wr0x w0x wrlx wlx h1x h2x h3x h4x w
  obtain rfl : wr0x = wr0 := okInj h1x hh1
  obtain rfl : w0x = w0 := okInj h2x hh2
  obtain rfl : wrlx = wrl := okInj h3x hl1
  obtain rfl : wlx = wl := okInj h4x hl2
  rw [mem_week_filter, coveredWeeks_mem hcov w]
  constructor
  · rintro ⟨ha, hb, hc⟩
    exact ⟨ha, by omega, hc⟩
  · rintro ⟨ha, hb, hc⟩
    exact ⟨ha, by omega, hc⟩

/-- C1 witness: the gap entry 1-4,6-8 on weekday 5 over the 2024-02-26
anchor instantiates the exception-week characterisation. -/
theorem claim1_witness :
    (∃ ws, exceptionWeeks [[1, 4], [6, 8]] = .ok ws ∧
      evGap.exdate = ws.map (fun w => convert_to_date anchor2024 w 5) ∧
      ∀ wr0 w0 wrl wl, pyHead [[(1 : Int), 4], [6, 8]] = .ok wr0 →
        pyHead wr0 = .ok w0 →
        pyLast [[(1 : Int), 4], [6, 8]] = .ok wrl → pyLast wrl = .ok wl →
        ∀ w : Int, w ∈ ws ↔
          w0 ≤ w ∧ w ≤ wl - 1 ∧
            ¬ ∃ r ∈ [[(1 : Int), 4], [6, 8]], ∃ a b,
              pyHead r = .ok a ∧ pyLast r = .ok b ∧ a ≤ w ∧ w ≤ b) ∧
    exceptionWeeks [[1, 4], [6, 8]] = .ok [5] :=
  @claim1_exception_weeks anchor2024 ttStd entryGap evGap [[1, 4], [6, 8]] 5
    (by decide) (by decide) (by decide)

/-- C2: every produced event's recurrence rule is weekly with interval 1 and
count equal to the last range's end minus the first range's start plus 1. -/
theorem claim2_recurrence_rule {fm : Int} {tt : List (String × String)}
    {e : Entry} {ev : Event} {wrs : List (List Int)} {wr0 wrl : List Int}
    {w0 wl : Int}
    (hok : convertEntry fm tt e = .ok ev)
    (hparse : parse_week_ranges e.zcd = .ok wrs)
    (hfirst : pyHead wrs = .ok wr0) (hfirst0 : pyHead wr0 = .ok w0)
    (hlast : pyLast wrs = .ok wrl) (hlast0 : pyLast wrl = .ok wl) :
    ev.rruleFreq = .weekly ∧ ev.rruleInterval = 1 ∧
      ev.rruleCount = wl - w0 + 1 := by
  obtain ⟨wrs2, t1, t2, wr02, w02, dow2, st, et, cov, wrl2, wl2, hp, ht1, ht2,
    hh1, hh2, hd, hst, het, hcov, hl1, hl2, hev⟩ := convertEntry_ok hok
  obtain rfl : wrs2 = wrs := okInj hp hparse
  obtain rfl : wr02 = wr0 := okInj hh1 hfirst
  obtain rfl : w02 = w0 := okInj hh2 hfirst0
  obtain rfl : wrl2 = wrl := okInj hl1 hlast
  obtain rfl : wl2 = wl := okInj hl2 hlast0
  rw [hev]
  exact ⟨rfl, rfl, rfl⟩

/-- C2 witness: the round-trip entry over weeks 1-16 instantiates the
recurrence-rule shape with count 16 - 1 + 1. -/
theorem claim2_witness :
    evRound.rruleFreq = .weekly ∧ evRound.rruleInterval = 1 ∧
      evRound.rruleCount = 16 - 1 + 1 :=
  @claim2_recurrence_rule anchor2024 ttStd entryRound evRound [[1, 16]]
    [1, 16] [1, 16] 1 16
    (by decide) (by decide) (by decide) (by decide) (by decide) (by decide)

/-- C3: the produced event's start instant is the date-time projector
applied to the first range's start week, the entry's weekday, and the start
clock of the timetable entry for the first period-token component; the end
instant likewise uses the same week with the end clock of the timetable
entry for the last period-token component. -/
theorem claim3_event_times {fm : Int} {tt : List (String × String)}
    {e : Entry} {ev : Event} {wrs : List (List Int)} {wr0 : List Int}
    {w0 dow : Int}
    {t1 t2 : String}
    (hok : convertEntry fm tt e = .ok ev)
    (hparse : parse_week_ranges e.zcd = .ok wrs)
    (hfirst : pyHead wrs = .ok wr0) (hfirst0 : pyHead wr0 = .ok w0)
    (hdow : toIntE e.xqj = .ok dow)
    (ht1 : lookupE tt ((pySplitOn '-' e.jcor).headI) = .ok t1)
    (ht2 : lookupE tt ((pySplitOn '-' e.jcor).getLastI) = .ok t2) :
    convert_to_datetime fm w0 dow ((pySplitOn '-' t1).headI) = .ok ev.dtstart ∧
    convert_to_datetime fm w0 dow ((pySplitOn '-' t2).getLastI) = .ok ev.dtend := by
  obtain ⟨wrs2, t12, t22, wr02, w02, dow2, st, et, cov, wrl2, wl2, hp, ht1b,
    ht2b, hh1, hh2, hd, hst, het, hcov, hl1, hl2, hev⟩ := convertEntry_ok hok
  obtain rfl : wrs2 = wrs := okInj hp hparse
  obtain rfl : wr02 = wr0 := okInj hh1 hfirst
  obtain rfl : w02 = w0 := okInj hh2 hfirst0
  obtain rfl : dow2 = dow := okInj hd hdow
  obtain rfl : t12 = t1 := okInj ht1b ht1
  obtain rfl : t22 = t2 := okInj ht2b ht2
  rw [hev]
  exact ⟨hst, het⟩

/-- C3 witness: the round-trip entry's event starts at week 1, Tuesday,
08:00 and ends at 09:40 over the 2024-02-26 anchor. -/
theorem claim3_witness :
    convert_to_datetime anchor2024 1 2 ((pySplitOn '-' "08:00-08:45").headI) =
      .ok evRound.dtstart ∧
    convert_to_datetime anchor2024 1 2 ((pySplitOn '-' "08:55-09:40").getLastI) =
      .ok evRound.dtend :=
  @claim3_event_times anchor2024 ttStd entryRound evRound [[1, 16]] [1, 16]
    1 2 "08:00-08:45" "08:55-09:40"
    (by decide) (by decide) (by decide) (by decide) (by decide) (by decide)
    (by decide)

/-- C4: the projectors are pure arithmetic: datetimeFor adds (week-1) weeks,
(weekday-1) days and the parsed clock time to the anchor, dateFor is the
same without the time component, and over the 2024-02-26 anchor week 3
Friday lands on 2024-03-15. -/
theorem claim4_projectors :
    (∀ (fm wk dow : Int) (time hs ms : String) (h m : Int),
      pyIdxE (pySplitOn ':' time) 0 = .ok hs → parseIntPy hs = some h →
      pyIdxE (pySplitOn ':' time) 1 = .ok ms → parseIntPy ms = some m →
      convert_to_datetime fm wk dow time =
        .ok (fm + (wk - 1) * 10080 + (dow - 1) * 1440 + h * 60 + m)) ∧
    (∀ fm wk dow : Int,
      convert_to_date fm wk dow = fm.ediv 1440 + (wk - 1) * 7 + (dow - 1)) ∧
    convert_to_date (minutesFromCivil 2024 2 26) 3 5 =
      daysFromCivil 2024 3 15 := by
  refine ⟨?_, fun fm wk dow => rfl, by decide⟩
  intro fm wk dow time hs ms h m hhs hh hms hm
  simp [convert_to_datetime, hhs, hms, toIntE, hh, hm, Bind.bind, Except.bind]

/-- C4 witness: week 1 Monday 08:00 over the 2024-02-26 anchor is the
anchor plus 480 minutes. -/
theorem claim4_witness :
    convert_to_datetime anchor2024 1 1 "08:00" =
      .ok (anchor2024 + (1 - 1) * 10080 + (1 - 1) * 1440 + 8 * 60 + 0) :=
  claim4_projectors.1 anchor2024 1 1 "08:00" "08" "00" 8 0
    (by decide) (by decide) (by decide) (by decide)

/-- C5 counterexample: the single-week token 5-with-marker parses to the
one-element list [5], not a two-element [start, end] pair, refuting the
claim that every comma-separated token yields a two-element pair. -/
theorem claim5_counterexample :
    parse_week_ranges "5周" = .ok [[5]] ∧
      ¬ ∀ r ∈ [[(5 : Int)]], r.length = 2 :=
  ⟨by decide, by decide⟩

/-- C5 amended: for every valid week-range string (a nonempty comma-join of
tokens that are either digits-dash-digits-marker or digits-marker), the
parser returns one integer list per token in source order; a range token
yields the two-element list [start, end], while a single-week token yields
the one-element list [n]. -/
theorem claim5_parser_shape (toks : List WeekTok) (hne : toks ≠ []) :
    parse_week_ranges (String.mk (joinTokens (toks.map renderTok))) =
      .ok (toks.map denoteTok) := by
  rw [parse_week_ranges_join (toks.map renderTok)
    (by
      intro h
      exact hne (List.map_eq_nil_iff.mp h))
    (by
      intro t ht
      rw [List.mem_map] at ht
      obtain ⟨tok, _, rfl⟩ := ht
      exact renderTok_no_comma tok)]
  exact mapME_renderTok toks

/-- C5 witness: the token list 1-4-marker, 6-marker parses to [[1,4],[6]]. -/
theorem claim5_witness :
    parse_week_ranges (String.mk (joinTokens
      (([WeekTok.rangeTok ['1'] ['4'] (by decide) (by decide),
         WeekTok.singleTok ['6'] (by decide)]).map renderTok))) =
      .ok ([WeekTok.rangeTok ['1'] ['4'] (by decide) (by decide),
            WeekTok.singleTok ['6'] (by decide)].map denoteTok) :=
  claim5_parser_shape _ (by simp)

/-- C6: translating the single-entry schedule with weeks 1-16, weekday 2
and periods 1-2 over the standard timetable produces exactly one event with
recurrence count 16 and no exception dates; in general any single
contiguous week range yields an empty exception list. -/
theorem claim6_round_trip :
    convert_class_schedule_to_ics anchor2024 ttStd [entryRound] =
      .ok [evRound] ∧
    ∀ a b : Int, exceptionWeeks [[a, b]] = .ok [] := by
  refine ⟨by decide, ?_⟩
  intro a b
  have hex : exceptionWeeks [[a, b]] =
      .ok ((pyRange a b).filter
        (fun w => !(pyRange a (b + 1) ++ []).contains w)) := rfl
  rw [hex]
  have hnil : (pyRange a b).filter
      (fun w => !(pyRange a (b + 1) ++ []).contains w) = [] := by
    rw [List.filter_eq_nil_iff]
    intro w hw
    rw [mem_pyRange] at hw
    have hmem : w ∈ pyRange a (b + 1) :=
      (mem_pyRange a (b + 1) w).mpr ⟨hw.1, by omega⟩
    simpa using hmem
  rw [hnil]

/-- C7: if some entry's week-range token has a non-numeric component, the
whole run aborts with an error and produces no event list at all (the
output file is written only after the loop, so nothing is emitted and no
later entry is processed into a partial calendar). -/
theorem claim7_abort_on_bad_token {fm : Int} {tt : List (String × String)}
    {es : List Entry} {e : Entry} {tok item : String}
    (hmem : e ∈ es)
    (htok : tok ∈ pySplitOn ',' e.zcd)
    (hitem : item ∈ (reSplitWeek tok).filter (fun x => !(x == "")))
    (hbad : parseIntPy item = none) :
    ∃ err, convert_class_schedule_to_ics fm tt es = .error err := by
  have h1 : toIntE item = .error (.invalidLiteral item) := by
    simp [toIntE, hbad]
  obtain ⟨e1, he1⟩ := mapME_error_intro hitem h1
  have he1b : parse_week_token tok = .error e1 := he1
  obtain ⟨e2, he2⟩ := mapME_error_intro htok he1b
  have he2b : parse_week_ranges e.zcd = .error e2 := he2
  have h3 : convertEntry fm tt e = .error e2 := by
    simp [convertEntry, he2b, Bind.bind, Except.bind]
  exact mapME_error_intro hmem h3

/-- C7 witness: a schedule containing the abc-marker entry aborts with an
error. -/
theorem claim7_witness :
    ∃ err, convert_class_schedule_to_ics anchor2024 ttStd [entryBad] =
      .error err :=
  @claim7_abort_on_bad_token anchor2024 ttStd [entryBad] entryBad "abc周"
    "abc" (by decide) (by decide) (by decide) (by decide)

/-- C8: every produced event's location is the campus field with its last
two characters removed, a single space, and the room-name field. -/
theorem claim8_location {fm : Int} {tt : List (String × String)} {e : Entry}
    {ev : Event} (hok : convertEntry fm tt e = .ok ev) :
    ev.location = String.mk (e.xqmc.data.dropLast.dropLast) ++ " " ++ e.cdmc := by
  obtain ⟨wrs2, t1, t2, wr02, w02, dow2, st, et, cov, wrl2, wl2, hp, ht1, ht2,
    hh1, hh2, hd, hst, het, hcov, hl1, hl2, hev⟩ := convertEntry_ok hok
  rw [hev]

/-- C8 witness: the round-trip entry's location drops the last two campus
characters and appends the room. -/
theorem claim8_witness :
    evRound.location =
      String.mk (entryRound.xqmc.data.dropLast.dropLast) ++ " " ++
        entryRound.cdmc :=
  @claim8_location anchor2024 ttStd entryRound evRound (by decide)

/-- C9 counterexample: the run over the abc-marker entry surfaces the bare
invalid-literal error, whose message text nowhere contains the course name,
refuting the claim that every error identifies the offending entry by
course name. -/
theorem claim9_counterexample :
    convert_class_schedule_to_ics anchor2024 ttStd [entryBad] =
      .error (.invalidLiteral "abc") ∧
    containsSub ("高等数学".data) ((errMsg (.invalidLiteral "abc")).data) = false :=
  ⟨by decide, by decide⟩

/-- C9 amended: a week-range parse error carries exactly the offending
non-numeric component of the week-range field (and nothing about the
course): the surfaced error is the invalid-literal error of some component
of some comma token of the field. -/
theorem claim9_error_content {s : String} {err : Err}
    (h : parse_week_ranges s = .error err) :
    ∃ item, err = .invalidLiteral item ∧ parseIntPy item = none ∧
      ∃ tok ∈ pySplitOn ',' s,
        item ∈ (reSplitWeek tok).filter (fun x => !(x == "")) := by
  obtain ⟨tok, htok, htokerr⟩ :=
    mapME_error_elim (show mapME parse_week_token (pySplitOn ',' s) = .error err
      from h)
  obtain ⟨item, hitem, hierr⟩ :=
    mapME_error_elim (show mapME toIntE
      ((reSplitWeek tok).filter (fun x => !(x == ""))) = .error err from htokerr)
  have hboth : parseIntPy item = none ∧ err = .invalidLiteral item := by
    unfold toIntE at hierr
    cases hp : parseIntPy item with
    | some n => rw [hp] at hierr; cases hierr
    | none =>
      rw [hp] at hierr
      exact ⟨rfl, (Except.error.inj hierr).symm⟩
  exact ⟨item, hboth.2, hboth.1, tok, htok, hitem⟩

/-- C9 amended witness: the abc-marker string's parse error carries the
component abc. -/
theorem claim9_witness :
    ∃ item, Err.invalidLiteral "abc" = .invalidLiteral item ∧
      parseIntPy item = none ∧
      ∃ tok ∈ pySplitOn ',' "abc周",
        item ∈ (reSplitWeek tok).filter (fun x => !(x == "")) :=
  @claim9_error_content "abc周" (.invalidLiteral "abc") (by decide)

/-- C10: a single-week token of digits followed by the marker parses to the
one-element list [n]; and the covered-week set, the exception sweep and the
first/last reads that feed the recurrence count treat such a one-element
range exactly as the two-element range [n, n], wherever it occurs in the
range list. -/
theorem claim10_singleton_week :
    (∀ n : List Char, n ≠ [] → (∀ c ∈ n, c.isDigit) →
      parse_week_ranges (String.mk (n ++ ['周'])) = .ok [[valDigits n]]) ∧
    (∀ (x : Int) (pre post : List (List Int)),
      coveredWeeks (pre ++ [x] :: post) = coveredWeeks (pre ++ [x, x] :: post) ∧
      exceptionWeeks (pre ++ [x] :: post) =
        exceptionWeeks (pre ++ [x, x] :: post) ∧
      (pyHead (pre ++ [x] :: post) >>= pyHead) =
        (pyHead (pre ++ [x, x] :: post) >>= pyHead) ∧
      (pyLast (pre ++ [x] :: post) >>= pyLast) =
        (pyLast (pre ++ [x, x] :: post) >>= pyLast)) := by
  constructor
  · intro n hne hdig
    have hjoin : parse_week_ranges (String.mk (joinTokens [n ++ ['周']])) =
        mapME parse_week_token ([n ++ ['周']].map String.mk) := by
      refine parse_week_ranges_join [n ++ ['周']] (by simp) ?_
      intro t ht c hc
      rw [List.mem_singleton] at ht
      subst ht
      rcases List.mem_append.mp hc with h2 | h2
      · exact digit_not_comma (hdig c h2)
      · rw [List.mem_singleton] at h2; subst h2; rfl
    rw [show String.mk (n ++ ['周']) = String.mk (joinTokens [n ++ ['周']])
      from rfl]
    rw [hjoin]
    simp only [List.map_cons, List.map_nil, mapME,
      parse_week_token_single hne hdig]
    rfl
  · intro x pre post
    exact ⟨coveredWeeks_congr x pre post, exceptionWeeks_congr x pre post,
      pyHead_bind_eq x pre post, pyLast_bind_eq x pre post⟩

/-- C10 witness: the token 5-marker parses to [[5]]. -/
theorem claim10_witness :
    parse_week_ranges (String.mk (['5'] ++ ['周'])) = .ok [[valDigits ['5']]] :=
  claim10_singleton_week.1 ['5'] (by decide) (by decide)
